import Mathlib

/-!
Shallow embedding of the dynamic-array container in src/vector.h
(class RawMemory<T> plus class Vector<T>).

Representation. A RawMemory buffer of capacity c holding typed slots is
modelled as a list of length c over Option α: some x is a slot holding a
live, constructed element of value x, none is a raw (unconstructed) slot.
The Vector owns that list (field slots, so Capacity = slots.length) plus
the logical size (field size), exactly mirroring the data members data_
and size_ of the C++ class.

Standard-library algorithms. copy_n, uninitialized_copy_n,
uninitialized_move_n, uninitialized_value_construct_n, destroy_n, move
and move_backward all write a contiguous run of slots one by one; each is
modelled by the overwrite loop below, with the source run extracted from
the pre-call state. This is faithful because in every call site of
src/vector.h the sequential algorithm never reads a slot it has already
written in the same call: the non-overlapping calls trivially so; the
left shift in Erase (std::move, forward order) reads slot j+1 before any
write to it; the right shift in EmplaceWithoutReallocation
(std::move_backward, backward order) reads slot j before any write to it.
Move-construction and move-assignment of elements are modelled as value
copies (the value semantics of the container's contents; moved-from slots
stay constructed, which is all the claims observe).
-/

namespace VectorSpec

/-- Writes the run src into the slot list dst starting at offset off, one
slot at a time via List.set (so writes past the end of dst are dropped,
matching that every call site stays in bounds). Models the element-wise
std copy/move loops of src/vector.h. -/
def overwrite (dst : List (Option α)) (off : Nat) (src : List (Option α)) :
    List (Option α) :=
  match src with
  | [] => dst
  | x :: xs => overwrite (dst.set off x) (off + 1) xs

/-- The state of a Vector<T>: the owned RawMemory as a list of optional
slots (length = capacity_ of data_), and the logical size_. -/
structure Vec (α : Type) where
  slots : List (Option α)
  size : Nat
deriving DecidableEq, Repr

namespace Vec

/-- Capacity() — the capacity of the owned RawMemory. -/
def Capacity (v : Vec α) : Nat := v.slots.length

/-- Default constructor Vector(): empty buffer, size 0. -/
def empty : Vec α := ⟨[], 0⟩

/-- Sized constructor Vector(size): allocates capacity size and
value-constructs size elements (uninitialized_value_construct_n). -/
def ofSize (α : Type) [Inhabited α] (n : Nat) : Vec α :=
  ⟨List.replicate n (some default), n⟩

/-- Copy constructor Vector(const Vector&): allocates capacity other.size_
and copy-constructs the size_ live elements (uninitialized_copy_n). -/
def copyCtor (other : Vec α) : Vec α :=
  ⟨overwrite (List.replicate other.size none) 0 (other.slots.take other.size),
   other.size⟩

/-- Move constructor Vector(Vector&&): steals the RawMemory (the source's
buffer becomes null with capacity 0) and the size (the source's size_ is
set to 0). Returns (new vector, state the source is left in). -/
def moveCtor (other : Vec α) : Vec α × Vec α :=
  (⟨other.slots, other.size⟩, ⟨[], 0⟩)

/-- Copy assignment operator=(const Vector& rhs). The flag same models the
pointer identity test this == &rhs (the two arguments alias the same
object), in which case only the trailing size_ = rhs.size_ runs. Otherwise:
if rhs.size_ exceeds capacity, copy-and-swap (the result is the temporary
Vector(rhs)); else the in-place path: copy_n over the common prefix, then
either uninitialized_copy_n of rhs.size_ - size_ slots at offset i — where
the source sets i = 0 — or destroy_n of the excess tail; finally
size_ = rhs.size_. -/
def copyAssign (a rhs : Vec α) (same : Bool) : Vec α :=
  if same then ⟨a.slots, rhs.size⟩
  else if a.Capacity < rhs.size then copyCtor rhs
  else
    let i : Nat := 0
    let common := min a.size rhs.size
    let s1 := overwrite a.slots 0 (rhs.slots.take common)
    let s2 :=
      if a.size < rhs.size then
        overwrite s1 i ((rhs.slots.drop i).take (rhs.size - a.size))
      else
        overwrite s1 rhs.size (List.replicate (a.size - rhs.size) none)
    ⟨s2, rhs.size⟩

/-- Move assignment operator=(Vector&& rhs): unless this == &rhs (flag
same), swaps storage and size with rhs. Returns the pair
(state of *this, state rhs is left in). -/
def moveAssign (a rhs : Vec α) (same : Bool) : Vec α × Vec α :=
  if same then (a, rhs)
  else (⟨rhs.slots, rhs.size⟩, ⟨a.slots, a.size⟩)

/-- Swap(Vector&): exchanges storage and size. -/
def SwapOp (a b : Vec α) : Vec α × Vec α :=
  (⟨b.slots, b.size⟩, ⟨a.slots, a.size⟩)

/-- At(index): throws out_of_range when index >= size_, else returns the
slot data_[index]. The result is the content of that slot (some of the
element when the slot is live). -/
def At (v : Vec α) (index : Nat) : Except String (Option α) :=
  if v.size ≤ index then Except.error "Vector::At: index out of range"
  else Except.ok (v.slots.getD index none)

/-- At as a call on the object: At is a const member function, so the call
returns the result together with the unchanged object state. -/
def AtCall (v : Vec α) (index : Nat) : (Except String (Option α)) × Vec α :=
  (v.At index, v)

/-- Reserve(new_capacity): no-op when new_capacity <= capacity; otherwise
allocates a fresh RawMemory of exactly new_capacity, transfers the size_
live elements into it (MoveOrCopyRange), destroys the originals and swaps
the buffers. -/
def Reserve (v : Vec α) (newCapacity : Nat) : Vec α :=
  if newCapacity ≤ v.Capacity then v
  else ⟨overwrite (List.replicate newCapacity none) 0 (v.slots.take v.size),
        v.size⟩

/-- Resize(new_size): shrinking destroys the tail slots [new_size, size_);
growing first Reserves new_size when it exceeds capacity, then
value-constructs the new tail; finally size_ = new_size. -/
def Resize (v : Vec α) [Inhabited α] (newSize : Nat) : Vec α :=
  if newSize < v.size then
    ⟨overwrite v.slots newSize (List.replicate (v.size - newSize) none),
     newSize⟩
  else if v.size < newSize then
    let v' := if v.Capacity < newSize then v.Reserve newSize else v
    ⟨overwrite v'.slots v.size (List.replicate (newSize - v.size) (some default)),
     newSize⟩
  else ⟨v.slots, newSize⟩

/-- Clear(): destroys all live elements, size_ = 0, capacity kept. -/
def Clear (v : Vec α) : Vec α :=
  ⟨overwrite v.slots 0 (List.replicate v.size none), 0⟩

/-- PopBack(): decrements size_ then destroys the slot at the new size_. -/
def PopBack (v : Vec α) : Vec α :=
  ⟨v.slots.set (v.size - 1) none, v.size - 1⟩

/-- EmplaceWithReallocation(index, args): doubled (floor 1) capacity, the
new element is constructed at slot index of the new buffer first, then the
prefix [0, index) and the suffix [index, size_) of the old buffer are
transferred around it (MoveOrCopyRange). The ++size_ happens in Emplace. -/
def EmplaceWithReallocation (v : Vec α) (index : Nat) (x : α) : Vec α :=
  let newCapacity := if v.Capacity = 0 then 1 else 2 * v.Capacity
  let nd1 := (List.replicate newCapacity (none : Option α)).set index (some x)
  let nd2 := overwrite nd1 0 (v.slots.take index)
  let nd3 := overwrite nd2 (index + 1) ((v.slots.drop index).take (v.size - index))
  ⟨nd3, v.size⟩

/-- EmplaceWithoutReallocation(index, args): at the end, the element is
constructed
directly in the free slot; mid-array, a temporary holds the value, the
last element is move-constructed into the trailing free slot, the run
[index, size_ - 1) is shifted one slot right (move_backward), and the
temporary is move-assigned into slot index. The ++size_ happens
in Emplace. -/
def EmplaceWithoutReallocation (v : Vec α) (index : Nat) (x : α) : Vec α :=
  if index = v.size then ⟨v.slots.set v.size (some x), v.size⟩
  else
    let s1 := v.slots.set v.size (v.slots.getD (v.size - 1) none)
    let s2 := overwrite s1 (index + 1) ((s1.drop index).take (v.size - 1 - index))
    ⟨s2.set index (some x), v.size⟩

/-- Emplace(pos, args): index = pos - begin(); reallocating path when
size_ == Capacity(), in-place path otherwise; then ++size_ and
return begin() + index. Returns (new state, offset of the returned
iterator from begin()). -/
def Emplace (v : Vec α) (index : Nat) (x : α) : Vec α × Nat :=
  let v' := if v.size = v.Capacity then v.EmplaceWithReallocation index x
            else v.EmplaceWithoutReallocation index x
  (⟨v'.slots, v'.size + 1⟩, index)

/-- EmplaceBack(args) = Emplace(end(), args); returns the new state and
the offset of the element the returned reference designates. -/
def EmplaceBack (v : Vec α) (x : α) : Vec α × Nat :=
  v.Emplace v.size x

/-- Insert(pos, value) forwards to Emplace. -/
def Insert (v : Vec α) (index : Nat) (x : α) : Vec α × Nat :=
  v.Emplace index x

/-- PushBack(value) forwards to EmplaceBack. -/
def PushBack (v : Vec α) (x : α) : Vec α :=
  (v.EmplaceBack x).1

/-- Erase(pos): destroy_at the slot at index, then std::move the run
[index+1, size_) one slot left, then --size_. -/
def Erase (v : Vec α) (index : Nat) : Vec α :=
  let s1 := v.slots.set index none
  let s2 := overwrite s1 index ((s1.drop (index + 1)).take (v.size - index - 1))
  ⟨s2, v.size - 1⟩

/-- The live element sequence: the values of the slots [0, size). -/
def seq (v : Vec α) : List α := (v.slots.take v.size).reduceOption

/-- Well-formedness (the container's documented invariant): size_ never
exceeds capacity and every slot below size_ holds a live element. -/
def WF (v : Vec α) : Prop :=
  v.size ≤ v.slots.length ∧ ∀ j, j < v.size → (v.slots.getD j none).isSome = true

instance (v : Vec α) [DecidableEq α] : Decidable (WF v) := by
  unfold WF; infer_instance

end Vec

/-- States reachable from constructors by the public operations, with each
operation's asserted precondition as a side condition (Emplace asserts
pos within [begin, end], Erase within [begin, end), PopBack non-empty). -/
inductive Reachable {α : Type} [Inhabited α] : Vec α → Prop where
  | initEmpty : Reachable Vec.empty
  | initSized (n : Nat) : Reachable (Vec.ofSize α n)
  | copy {b} : Reachable b → Reachable (Vec.copyCtor b)
  | moveDst {v} : Reachable v → Reachable (v.moveCtor).1
  | moveSrc {v} : Reachable v → Reachable (v.moveCtor).2
  | assignSelf {a} : Reachable a → Reachable (a.copyAssign a true)
  | assign {a b} : Reachable a → Reachable b → Reachable (a.copyAssign b false)
  | massignDst {a b} : Reachable a → Reachable b → Reachable ((a.moveAssign b false).1)
  | massignSrc {a b} : Reachable a → Reachable b → Reachable ((a.moveAssign b false).2)
  | massignSelf {a} : Reachable a → Reachable ((a.moveAssign a true).1)
  | swapFst {a b} : Reachable a → Reachable b → Reachable ((Vec.SwapOp a b).1)
  | swapSnd {a b} : Reachable a → Reachable b → Reachable ((Vec.SwapOp a b).2)
  | reserve {v} (n : Nat) : Reachable v → Reachable (v.Reserve n)
  | resize {v} (n : Nat) : Reachable v → Reachable (v.Resize n)
  | clear {v} : Reachable v → Reachable v.Clear
  | emplace {v} (i : Nat) (x : α) : Reachable v → i ≤ v.size →
      Reachable ((v.Emplace i x).1)
  | popBack {v} : Reachable v → 0 < v.size → Reachable v.PopBack
  | erase {v} (i : Nat) : Reachable v → i < v.size → Reachable (v.Erase i)

/-- K consecutive end-insertions starting from a default-constructed
vector (the k-th insertion pushes the value k). -/
def pushN (K : Nat) : Vec Nat :=
  match K with
  | 0 => Vec.empty
  | k + 1 => (pushN k).PushBack k

theorem overwrite_length (src dst : List (Option α)) (off : Nat) :
    (overwrite dst off src).length = dst.length := by
  induction src generalizing dst off with
  | nil => rfl
  | cons x xs ih => simp only [overwrite]; rw [ih, List.length_set]

theorem getElem?_overwrite (src dst : List (Option α)) (off j : Nat) :
    (overwrite dst off src)[j]? =
      if off ≤ j ∧ j < off + src.length ∧ j < dst.length
      then src[j - off]?
      else dst[j]? := by
  induction src generalizing dst off with
  | nil =>
    simp only [overwrite, List.length_nil]
    rw [if_neg (by omega)]
  | cons x xs ih =>
    simp only [overwrite]
    rw [ih, List.length_set]
    rcases Nat.lt_trichotomy j off with h | h | h
    · rw [if_neg (by omega), if_neg (by omega), List.getElem?_set_ne (by omega)]
    · subst h
      by_cases h3 : j < dst.length
      · rw [if_neg (by omega),
          if_pos ⟨Nat.le_refl _, by simp only [List.length_cons]; omega, h3⟩,
          List.getElem?_set_self h3, Nat.sub_self, List.getElem?_cons_zero]
      · rw [if_neg (by omega), if_neg (by omega),
          List.set_eq_of_length_le (by omega)]
    · by_cases h4 : j < off + (x :: xs).length ∧ j < dst.length
      · have hx : j - off = (j - (off + 1)) + 1 := by omega
        rw [if_pos ⟨by omega, by simp only [List.length_cons] at h4 ⊢; omega, h4.2⟩,
          if_pos ⟨by omega, h4.1, h4.2⟩, hx, List.getElem?_cons_succ]
      · have hL : ¬(off + 1 ≤ j ∧ j < off + 1 + xs.length ∧ j < dst.length) := by
          simp only [List.length_cons] at h4; omega
        have hR : ¬(off ≤ j ∧ j < off + (x :: xs).length ∧ j < dst.length) := by
          simp only [List.length_cons] at h4 ⊢; omega
        rw [if_neg hL, if_neg hR, List.getElem?_set_ne (by omega)]

theorem getD_overwrite (src dst : List (Option α)) (off j : Nat) :
    (overwrite dst off src).getD j none =
      if off ≤ j ∧ j < off + src.length ∧ j < dst.length
      then src.getD (j - off) none
      else dst.getD j none := by
  rw [List.getD_eq_getElem?_getD, getElem?_overwrite]
  split <;> rw [← List.getD_eq_getElem?_getD]

theorem getD_set_self (l : List (Option α)) {i : Nat} {x : Option α}
    (h : i < l.length) : (l.set i x).getD i none = x := by
  rw [List.getD_eq_getElem?_getD, List.getElem?_set_self h]
  rfl

theorem getD_set_ne (l : List (Option α)) {i j : Nat} {x : Option α}
    (h : i ≠ j) : (l.set i x).getD j none = l.getD j none := by
  rw [List.getD_eq_getElem?_getD, List.getElem?_set_ne h,
    ← List.getD_eq_getElem?_getD]

theorem getD_take (l : List (Option α)) {n j : Nat} (h : j < n) :
    (l.take n).getD j none = l.getD j none := by
  rw [List.getD_eq_getElem?_getD, List.getElem?_take, if_pos h,
    ← List.getD_eq_getElem?_getD]

theorem getD_drop (l : List (Option α)) (n j : Nat) :
    (l.drop n).getD j none = l.getD (n + j) none := by
  rw [List.getD_eq_getElem?_getD, List.getElem?_drop,
    ← List.getD_eq_getElem?_getD]

theorem Emplace_fst_size (w : Vec α) (i : Nat) (x : α) :
    ((w.Emplace i x).1).size = w.size + 1 := by
  simp only [Vec.Emplace]
  split
  · rfl
  · simp only [Vec.EmplaceWithoutReallocation]
    split <;> rfl

theorem Emplace_fst_capacity (w : Vec α) (i : Nat) (x : α) :
    ((w.Emplace i x).1).Capacity =
      if w.size = w.Capacity then (if w.Capacity = 0 then 1 else 2 * w.Capacity)
      else w.Capacity := by
  simp only [Vec.Emplace, Vec.Capacity]
  split
  · simp only [Vec.EmplaceWithReallocation, Vec.Capacity]
    rw [overwrite_length, overwrite_length, List.length_set,
      List.length_replicate]
  · simp only [Vec.EmplaceWithoutReallocation]
    split
    · simp only [List.length_set]
    · simp only [List.length_set, overwrite_length]

/-- C2: starting from a default-constructed vector of int, PushBack(1),
PushBack(2), PushBack(3) gives size 3, capacity 4, sequence [1,2,3];
Insert of 9 at position 1 gives [1,9,2,3] and size 4; Erase at position 0
gives [9,2,3] and size 3; Resize(1) gives [9], size 1, capacity still 4. -/
theorem scenario_trace :
    (((((Vec.empty : Vec Nat).PushBack 1).PushBack 2).PushBack 3).size = 3) ∧
    (((((Vec.empty : Vec Nat).PushBack 1).PushBack 2).PushBack 3).Capacity = 4) ∧
    (((((Vec.empty : Vec Nat).PushBack 1).PushBack 2).PushBack 3).seq = [1, 2, 3]) ∧
    ((((((Vec.empty : Vec Nat).PushBack 1).PushBack 2).PushBack 3).Insert 1 9).1.seq
      = [1, 9, 2, 3]) ∧
    ((((((Vec.empty : Vec Nat).PushBack 1).PushBack 2).PushBack 3).Insert 1 9).1.size
      = 4) ∧
    (((((((Vec.empty : Vec Nat).PushBack 1).PushBack 2).PushBack 3).Insert 1 9).1.Erase 0).seq
      = [9, 2, 3]) ∧
    (((((((Vec.empty : Vec Nat).PushBack 1).PushBack 2).PushBack 3).Insert 1 9).1.Erase 0).size
      = 3) ∧
    ((((((((Vec.empty : Vec Nat).PushBack 1).PushBack 2).PushBack 3).Insert 1 9).1.Erase 0).Resize 1).seq
      = [9]) ∧
    ((((((((Vec.empty : Vec Nat).PushBack 1).PushBack 2).PushBack 3).Insert 1 9).1.Erase 0).Resize 1).size
      = 1) ∧
    ((((((((Vec.empty : Vec Nat).PushBack 1).PushBack 2).PushBack 3).Insert 1 9).1.Erase 0).Resize 1).Capacity
      = 4) := by
  decide

/-- C7: move construction hands the storage and size over to the new
vector unchanged (so the new vector holds exactly the prior elements,
size and capacity, with no element-wise work) and leaves the source
empty: size 0 and capacity 0. -/
theorem moveCtor_spec (v : Vec α) :
    (v.moveCtor).1 = v ∧ (v.moveCtor).1.slots = v.slots ∧
    (v.moveCtor).2.size = 0 ∧ (v.moveCtor).2.Capacity = 0 :=
  ⟨rfl, rfl, rfl, rfl⟩

/-- C9: self copy-assignment (the this == &rhs guard taken) leaves the
vector completely unchanged: same size, capacity and elements. -/
theorem copyAssign_self (a : Vec α) : a.copyAssign a true = a := rfl

/-- C1, exhibit of the code bug on the fits-in-capacity path of copy
assignment: for a = [10] with size 1 and capacity 2 and b = [7, 8] with
size 2 (so b fits in a's capacity), the tail copy reads and writes at
offset i = 0 instead of the old size, so slot 1 of a is left raw (none)
while the size becomes 2: the resulting live sequence is [7], not b's
sequence [7, 8] that the claim requires. -/
theorem copyAssign_fits_bug :
    Vec.WF (⟨[some 10, none], 1⟩ : Vec Nat) ∧
    Vec.WF (⟨[some 7, some 8], 2⟩ : Vec Nat) ∧
    (⟨[some 7, some 8], 2⟩ : Vec Nat).size ≤
      (⟨[some 10, none], 1⟩ : Vec Nat).Capacity ∧
    ((⟨[some 10, none], 1⟩ : Vec Nat).copyAssign ⟨[some 7, some 8], 2⟩ false).size
      = 2 ∧
    ((⟨[some 10, none], 1⟩ : Vec Nat).copyAssign ⟨[some 7, some 8], 2⟩ false).slots
      = [some 7, none] ∧
    ((⟨[some 10, none], 1⟩ : Vec Nat).copyAssign ⟨[some 7, some 8], 2⟩ false).seq
      = [7] ∧
    (⟨[some 7, some 8], 2⟩ : Vec Nat).seq = [7, 8] := by
  decide

/-- C8, exhibit of the invariant violation caused by the copy-assignment
bug: the state a = [10] (capacity 2, built by PushBack 10, PushBack 20,
PopBack) copy-assigned from b = [7, 8] is reachable by public operations
from default-constructed vectors, yet its slot 1 is raw (none) although
its size is 2 — so the slots [0, size) do not all hold live elements. -/
theorem reachable_invariant_violation :
    Reachable (((((Vec.empty : Vec Nat).PushBack 10).PushBack 20).PopBack).copyAssign
        (((Vec.empty : Vec Nat).PushBack 7).PushBack 8) false) ∧
    (((((Vec.empty : Vec Nat).PushBack 10).PushBack 20).PopBack).copyAssign
        (((Vec.empty : Vec Nat).PushBack 7).PushBack 8) false).size = 2 ∧
    (((((Vec.empty : Vec Nat).PushBack 10).PushBack 20).PopBack).copyAssign
        (((Vec.empty : Vec Nat).PushBack 7).PushBack 8) false).slots.getD 1 none
      = none := by
  refine ⟨?_, by decide, by decide⟩
  have h0 : Reachable (Vec.empty : Vec Nat) := Reachable.initEmpty
  have h10 : Reachable ((Vec.empty : Vec Nat).PushBack 10) :=
    Reachable.emplace 0 10 h0 (by decide)
  have h20 : Reachable (((Vec.empty : Vec Nat).PushBack 10).PushBack 20) :=
    Reachable.emplace 1 20 h10 (by decide)
  have ha : Reachable ((((Vec.empty : Vec Nat).PushBack 10).PushBack 20).PopBack) :=
    Reachable.popBack h20 (by decide)
  have h7 : Reachable ((Vec.empty : Vec Nat).PushBack 7) :=
    Reachable.emplace 0 7 h0 (by decide)
  have hb : Reachable (((Vec.empty : Vec Nat).PushBack 7).PushBack 8) :=
    Reachable.emplace 1 8 h7 (by decide)
  exact Reachable.assign ha hb

/-- C4: Erase at a valid position i destroys the element at i, shifts the
elements originally at [i+1, size) one slot left, and decrements the size
by exactly 1: every slot j below the new size holds the original element
at j when j < i and the original element at j + 1 otherwise, so the
result is the original sequence with only the i-th element removed. -/
theorem Erase_spec (v : Vec α) (i : Nat) (hWF : v.WF) (hi : i < v.size) :
    (v.Erase i).size = v.size - 1 ∧
    (v.Erase i).Capacity = v.Capacity ∧
    ∀ j, j < v.size - 1 →
      (v.Erase i).slots.getD j none =
        if j < i then v.slots.getD j none else v.slots.getD (j + 1) none := by
  obtain ⟨hlen, hlive⟩ := hWF
  refine ⟨rfl, ?_, ?_⟩
  · simp only [Vec.Erase, Vec.Capacity, overwrite_length, List.length_set]
  · intro j hj
    simp only [Vec.Erase]
    rw [getD_overwrite, List.length_take, List.length_drop, List.length_set]
    by_cases hji : j < i
    · rw [if_neg (by omega), if_pos hji]
      exact getD_set_ne _ (by omega)
    · rw [if_pos ⟨by omega, by omega, by omega⟩, if_neg hji,
        getD_take _ (by omega : j - i < v.size - i - 1), getD_drop]
      have harith : i + 1 + (j - i) = j + 1 := by omega
      rw [harith]
      exact getD_set_ne _ (by omega)

/-- C4 witness: Erase at position 1 of the vector [1, 2, 3]. -/
theorem Erase_spec_witness :
    (Vec.WF (⟨[some 1, some 2, some 3], 3⟩ : Vec Nat) ∧
      1 < (⟨[some 1, some 2, some 3], 3⟩ : Vec Nat).size) ∧
    (((⟨[some 1, some 2, some 3], 3⟩ : Vec Nat).Erase 1).size
        = (⟨[some 1, some 2, some 3], 3⟩ : Vec Nat).size - 1 ∧
      ((⟨[some 1, some 2, some 3], 3⟩ : Vec Nat).Erase 1).Capacity
        = (⟨[some 1, some 2, some 3], 3⟩ : Vec Nat).Capacity ∧
      ∀ j, j < (⟨[some 1, some 2, some 3], 3⟩ : Vec Nat).size - 1 →
        ((⟨[some 1, some 2, some 3], 3⟩ : Vec Nat).Erase 1).slots.getD j none =
          if j < 1 then (⟨[some 1, some 2, some 3], 3⟩ : Vec Nat).slots.getD j none
          else (⟨[some 1, some 2, some 3], 3⟩ : Vec Nat).slots.getD (j + 1) none) :=
  ⟨⟨by decide, by decide⟩,
    Erase_spec (⟨[some 1, some 2, some 3], 3⟩ : Vec Nat) 1 (by decide) (by decide)⟩

/-- C5: At(index) fails with out-of-range exactly when index is at least
the size; below the size it returns the live slot content at that index;
in particular At(size) always fails and At(size − 1) succeeds on a
non-empty vector; and the call leaves the vector unchanged. -/
theorem At_spec (v : Vec α) (i : Nat) (hWF : v.WF) :
    ((∃ e, v.At i = Except.error e) ↔ v.size ≤ i) ∧
    (i < v.size →
      v.At i = Except.ok (v.slots.getD i none) ∧
      (v.slots.getD i none).isSome = true) ∧
    v.At v.size = Except.error "Vector::At: index out of range" ∧
    (0 < v.size → ∃ x, v.At (v.size - 1) = Except.ok (some x)) ∧
    (v.AtCall i).2 = v := by
  obtain ⟨hlen, hlive⟩ := hWF
  refine ⟨⟨?_, ?_⟩, ?_, ?_, ?_, rfl⟩
  · rintro ⟨e, he⟩
    by_contra hlt
    rw [Vec.At, if_neg hlt] at he
    exact Except.noConfusion he
  · intro hle
    exact ⟨"Vector::At: index out of range", by rw [Vec.At, if_pos hle]⟩
  · intro hlt
    exact ⟨by rw [Vec.At, if_neg (by omega)], hlive i hlt⟩
  · rw [Vec.At, if_pos (Nat.le_refl _)]
  · intro hpos
    obtain ⟨x, hx⟩ := Option.isSome_iff_exists.mp (hlive (v.size - 1) (by omega))
    exact ⟨x, by rw [Vec.At, if_neg (by omega), hx]⟩

/-- C5 witness: At on the vector [5] at index 0 (and the failing index
1 = size through the same instantiation). -/
theorem At_spec_witness :
    Vec.WF (⟨[some 5], 1⟩ : Vec Nat) ∧
    (((∃ e, (⟨[some 5], 1⟩ : Vec Nat).At 0 = Except.error e) ↔
        (⟨[some 5], 1⟩ : Vec Nat).size ≤ 0) ∧
      (0 < (⟨[some 5], 1⟩ : Vec Nat).size →
        (⟨[some 5], 1⟩ : Vec Nat).At 0
          = Except.ok ((⟨[some 5], 1⟩ : Vec Nat).slots.getD 0 none) ∧
        ((⟨[some 5], 1⟩ : Vec Nat).slots.getD 0 none).isSome = true) ∧
      (⟨[some 5], 1⟩ : Vec Nat).At (⟨[some 5], 1⟩ : Vec Nat).size
        = Except.error "Vector::At: index out of range" ∧
      (0 < (⟨[some 5], 1⟩ : Vec Nat).size →
        ∃ x, (⟨[some 5], 1⟩ : Vec Nat).At ((⟨[some 5], 1⟩ : Vec Nat).size - 1)
          = Except.ok (some x)) ∧
      ((⟨[some 5], 1⟩ : Vec Nat).AtCall 0).2 = (⟨[some 5], 1⟩ : Vec Nat)) :=
  ⟨by decide, At_spec (⟨[some 5], 1⟩ : Vec Nat) 0 (by decide)⟩

/-- C6: Reserve(new_capacity) with new_capacity at most the current
capacity changes nothing at all; with new_capacity above it, the capacity
becomes exactly new_capacity, the size is unchanged and every live slot
keeps its element. -/
theorem Reserve_spec (v : Vec α) (c : Nat) (hWF : v.WF) :
    (c ≤ v.Capacity → v.Reserve c = v) ∧
    (v.Capacity < c →
      (v.Reserve c).Capacity = c ∧ (v.Reserve c).size = v.size ∧
      ∀ j, j < v.size →
        (v.Reserve c).slots.getD j none = v.slots.getD j none) := by
  obtain ⟨hlen, hlive⟩ := hWF
  constructor
  · intro hc
    rw [Vec.Reserve, if_pos hc]
  · intro hc
    have hnot : ¬ c ≤ v.Capacity := by omega
    refine ⟨?_, ?_, ?_⟩
    · simp only [Vec.Reserve, if_neg hnot]
      simp only [Vec.Capacity, overwrite_length, List.length_replicate]
    · simp only [Vec.Reserve, if_neg hnot]
    · intro j hj
      simp only [Vec.Reserve, if_neg hnot]
      rw [getD_overwrite, List.length_take, List.length_replicate]
      have hcap : v.Capacity = v.slots.length := rfl
      rw [if_pos ⟨Nat.zero_le j, by omega, by omega⟩, Nat.sub_zero,
        getD_take _ hj]

/-- C6 witness: Reserve with bound 3 on the vector [4] of capacity 1. -/
theorem Reserve_spec_witness :
    Vec.WF (⟨[some 4], 1⟩ : Vec Nat) ∧
    ((3 ≤ (⟨[some 4], 1⟩ : Vec Nat).Capacity →
        (⟨[some 4], 1⟩ : Vec Nat).Reserve 3 = (⟨[some 4], 1⟩ : Vec Nat)) ∧
      ((⟨[some 4], 1⟩ : Vec Nat).Capacity < 3 →
        ((⟨[some 4], 1⟩ : Vec Nat).Reserve 3).Capacity = 3 ∧
        ((⟨[some 4], 1⟩ : Vec Nat).Reserve 3).size
          = (⟨[some 4], 1⟩ : Vec Nat).size ∧
        ∀ j, j < (⟨[some 4], 1⟩ : Vec Nat).size →
          ((⟨[some 4], 1⟩ : Vec Nat).Reserve 3).slots.getD j none
            = (⟨[some 4], 1⟩ : Vec Nat).slots.getD j none)) :=
  ⟨by decide, Reserve_spec (⟨[some 4], 1⟩ : Vec Nat) 3 (by decide)⟩

/-- C10: Emplace at a valid position returns the iterator offset
pos − begin, and the slot at that offset in the post-call array holds the
inserted value; EmplaceBack returns a reference to the new last element
(offset equal to the old size), which holds the inserted value. -/
theorem Emplace_ret (v : Vec α) (i : Nat) (x : α) (hWF : v.WF)
    (hi : i ≤ v.size) :
    (v.Emplace i x).2 = i ∧
    ((v.Emplace i x).1).slots.getD i none = some x ∧
    (v.EmplaceBack x).2 = v.size ∧
    ((v.EmplaceBack x).1).slots.getD v.size none = some x := by
  obtain ⟨hlen, hlive⟩ := hWF
  have key : ∀ k, k ≤ v.size →
      ((v.Emplace k x).1).slots.getD k none = some x := by
    intro k hk
    by_cases hfull : v.size = v.Capacity
    · simp only [Vec.Emplace, if_pos hfull, Vec.EmplaceWithReallocation]
      have hcap : v.Capacity = v.slots.length := rfl
      rw [getD_overwrite, if_neg (by omega), getD_overwrite,
        if_neg (by rw [List.length_take]; omega)]
      refine getD_set_self _ ?_
      rw [List.length_replicate]
      simp only [Vec.Capacity] at hfull ⊢
      split <;> omega
    · have hlt : v.size < v.slots.length := by
        simp only [Vec.Capacity] at hfull
        omega
      simp only [Vec.Emplace, if_neg hfull, Vec.EmplaceWithoutReallocation]
      by_cases hke : k = v.size
      · rw [if_pos hke]
        subst hke
        exact getD_set_self _ hlt
      · rw [if_neg hke]
        refine getD_set_self _ ?_
        rw [overwrite_length, List.length_set]
        omega
  exact ⟨rfl, key i hi, rfl, key v.size (Nat.le_refl _)⟩

/-- C10 witness: Emplace of the value 9 at position 1 (and EmplaceBack
through the same instantiation) on the vector [1, 2] with capacity 3. -/
theorem Emplace_ret_witness :
    (Vec.WF (⟨[some 1, some 2, none], 2⟩ : Vec Nat) ∧
      1 ≤ (⟨[some 1, some 2, none], 2⟩ : Vec Nat).size) ∧
    (((⟨[some 1, some 2, none], 2⟩ : Vec Nat).Emplace 1 9).2 = 1 ∧
      (((⟨[some 1, some 2, none], 2⟩ : Vec Nat).Emplace 1 9).1).slots.getD 1 none
        = some 9 ∧
      ((⟨[some 1, some 2, none], 2⟩ : Vec Nat).EmplaceBack 9).2
        = (⟨[some 1, some 2, none], 2⟩ : Vec Nat).size ∧
      (((⟨[some 1, some 2, none], 2⟩ : Vec Nat).EmplaceBack 9).1).slots.getD
          (⟨[some 1, some 2, none], 2⟩ : Vec Nat).size none = some 9) :=
  ⟨⟨by decide, by decide⟩,
    Emplace_ret (⟨[some 1, some 2, none], 2⟩ : Vec Nat) 1 9 (by decide) (by decide)⟩

theorem pushN_growth (K : Nat) (hK : 1 ≤ K) :
    (pushN K).size = K ∧
    ∃ j, (pushN K).Capacity = 2 ^ j ∧ K ≤ 2 ^ j ∧ 2 ^ j < 2 * K := by
  induction K with
  | zero => exact absurd hK (by decide)
  | succ k ih =>
    by_cases hk : k = 0
    · subst hk
      exact ⟨by decide, 0, by decide, by decide, by decide⟩
    · obtain ⟨hsz, j, hcap, hle, hlt⟩ := ih (by omega)
      have hs : (pushN (k + 1)).size = k + 1 := by
        simp only [pushN, Vec.PushBack, Vec.EmplaceBack]
        rw [Emplace_fst_size, hsz]
      refine ⟨hs, ?_⟩
      have hcap' : (pushN (k + 1)).Capacity =
          if (pushN k).size = (pushN k).Capacity
          then (if (pushN k).Capacity = 0 then 1 else 2 * (pushN k).Capacity)
          else (pushN k).Capacity := by
        simp only [pushN, Vec.PushBack, Vec.EmplaceBack]
        exact Emplace_fst_capacity _ _ _
      rw [hsz, hcap] at hcap'
      by_cases hfull : k = 2 ^ j
      · rw [if_pos hfull,
          if_neg (by positivity : (0:ℕ) < 2 ^ j).ne'] at hcap'
        refine ⟨j + 1, ?_, ?_, ?_⟩
        · rw [hcap', pow_succ]
          ring
        · rw [pow_succ, ← hfull]
          omega
        · rw [pow_succ, ← hfull]
          omega
      · rw [if_neg hfull] at hcap'
        exact ⟨j, hcap', by omega, by omega⟩

/-- C3: K consecutive end-insertions from a default-constructed vector
leave size K and capacity the smallest value of the doubling sequence
1, 2, 4, ... that is at least K (a power of two, at least K, and no
larger than any power of two that is at least K); and every reallocating
insertion takes the new capacity to 1 when the old capacity is 0 and to
twice the old capacity otherwise. -/
theorem doubling_growth (K : Nat) (hK : 1 ≤ K) :
    (pushN K).size = K ∧
    (∃ j, (pushN K).Capacity = 2 ^ j) ∧
    K ≤ (pushN K).Capacity ∧
    (∀ m, K ≤ 2 ^ m → (pushN K).Capacity ≤ 2 ^ m) ∧
    ∀ (w : Vec Nat) (i y : Nat), w.size = w.Capacity →
      ((w.Emplace i y).1).Capacity =
        if w.Capacity = 0 then 1 else 2 * w.Capacity := by
  obtain ⟨hsz, j, hcap, hle, hlt⟩ := pushN_growth K hK
  refine ⟨hsz, ⟨j, hcap⟩, by omega, ?_, ?_⟩
  · intro m hm
    rw [hcap]
    have hstep : 2 ^ j < 2 ^ (m + 1) := by
      calc 2 ^ j < 2 * K := hlt
        _ ≤ 2 * 2 ^ m := by omega
        _ = 2 ^ (m + 1) := by rw [pow_succ]; ring
    have hjm : j < m + 1 := (Nat.pow_lt_pow_iff_right (by omega)).mp hstep
    exact Nat.pow_le_pow_right (by omega) (by omega)
  · intro w i y h
    rw [Emplace_fst_capacity, if_pos h]

/-- C3 witness: five end-insertions give size 5 and capacity 8. -/
theorem doubling_growth_witness :
    1 ≤ 5 ∧ (pushN 5).size = 5 ∧ (pushN 5).Capacity = 8 :=
  ⟨by decide, (doubling_growth 5 (by decide)).1, by decide⟩

end VectorSpec
